import Mathlib

/-!
# Films service: aggregate queries over a film catalog

A shallow embedding of `films_service.go` (package `films`) and the
properties of its query functions.

Modelling conventions.

* Every query starts with `films := GetFilms()`; here the catalog is the
  explicit argument `films : List Film`.  `GetFilms` itself is a step on the
  explicit package state `Cache`, and the outcome of `fetchFilms` is an input
  of that step.
* The map `count` of `DirectorWithMostFilms` is modelled by its lookup
  function; the order in which `range` visits its keys, which Go leaves
  unspecified, is an argument of the function.
* A `float64` is modelled by the rational number it denotes (NaN and the
  infinities are outside the model).  The arithmetic of `AverageRating`
  takes a rounding function `fl : ℚ → ℚ` that is applied to the exact result
  of every floating-point operation: `id` gives exact rational arithmetic,
  `roundF64` gives IEEE-754 binary64 round-to-nearest-even.
* `int(x)` on a float (`intOfFloat`) truncates toward zero.  When the
  truncated value is outside the 64-bit range of `int`, Go leaves the result
  to the implementation; the model returns `-1 << 63`, the result on amd64.
* `float64(count)` is exact: a count of films is far below `2 ^ 53`.
* `time.Time` values produced by `time.Parse("2006-01-02", _)` are midnights
  in UTC; a `Time` is the number of seconds since 0001-01-01T00:00:00Z and a
  `Duration` is a number of nanoseconds in the signed 64-bit range.
* `Duration.Hours() / 24` is computed exactly.  The durations that occur are
  whole days, whose hour counts are small integers that binary64 represents
  and divides by 24 exactly, and the saturated `maxDuration`, whose quotient
  106751.99... is far from an integer; so rounding cannot change the
  truncated gap.
* `sort.Slice` is modelled by a sort of the list of instants: the sorted
  order of a list in a linear order is unique.
-/

namespace Films

/-! ## Data model -/

/-- A film record, the Go struct `Film`. -/
structure Film where
  Name : String
  Length : Int
  Rating : ℚ
  ReleaseDate : String
  DirectorName : String
deriving DecidableEq

/-- The zero value of `Film` (`var bestFilm Film`). -/
def zeroFilm : Film := ⟨"", 0, 0, "", ""⟩

/-! ## BestRatedFilm -/

/-- One iteration of the loop of `BestRatedFilm`; the state is
`(bestFilm, found)`. -/
def bestRatedStep (directorName : String) (st : Film × Bool) (film : Film) : Film × Bool :=
  if film.DirectorName = directorName then
    if !st.2 || film.Rating > st.1.Rating then (film, true) else st
  else st

/-- The Go function `BestRatedFilm`. -/
def BestRatedFilm (films : List Film) (directorName : String) : String :=
  let st := films.foldl (bestRatedStep directorName) (zeroFilm, false)
  if st.2 then st.1.Name else ""

/-! ## AverageRating -/

/-- Truncation of a rational toward zero. -/
def truncate (x : ℚ) : Int := if 0 ≤ x then ⌊x⌋ else ⌈x⌉

/-- The largest `int`, `int(^uint(0) >> 1)` on a 64-bit platform. -/
def maxInt : Int := 9223372036854775807

/-- The smallest `int` on a 64-bit platform, `-1 << 63`. -/
def minInt : Int := -9223372036854775808

/-- The conversion `int(x)` of a float: truncation toward zero when the
truncated value fits the 64-bit `int`; otherwise `-1 << 63`, the result of
the conversion on amd64 (Go leaves it to the implementation). -/
def intOfFloat (x : ℚ) : Int :=
  if minInt ≤ truncate x ∧ truncate x ≤ maxInt then truncate x else minInt

/-- One iteration of the loop of `AverageRating`; the state is
`(totalRating, count)`. -/
def averageStep (fl : ℚ → ℚ) (directorName : String) (st : ℚ × Int) (film : Film) : ℚ × Int :=
  if film.DirectorName = directorName then (fl (st.1 + film.Rating), st.2 + 1) else st

/-- The Go function `AverageRating`; `fl` rounds the result of each
floating-point operation. -/
def AverageRating (fl : ℚ → ℚ) (films : List Film) (directorName : String) : ℚ :=
  let st := films.foldl (averageStep fl directorName) (0, 0)
  if st.2 = 0 then 0
  else
    let value := fl (st.1 / (st.2 : ℚ))
    fl (fl ((intOfFloat (fl (fl (value * 10) + 1 / 2)) : Int) : ℚ) / 10)

/-! ### IEEE-754 binary64 rounding -/

/-- The power `2 ^ e` for an integer exponent. -/
def pow2 (e : Int) : ℚ :=
  if 0 ≤ e then ((2 ^ e.toNat : Nat) : ℚ) else 1 / ((2 ^ (-e).toNat : Nat) : ℚ)

/-- The integer part of the binary logarithm of `n`, by repeated halving
(`fuel` bounds the number of halvings). -/
def log2Aux : Nat → Nat → Nat
  | 0, _ => 0
  | fuel + 1, n => if n < 2 then 0 else log2Aux fuel (n / 2) + 1

/-- The binary exponent of `x ≠ 0`: the `e` with `2 ^ e ≤ |x| < 2 ^ (e + 1)`. -/
def binExp (x : ℚ) : Int :=
  let n := x.num.natAbs
  let e : Int := (log2Aux n n : Int) - (log2Aux x.den x.den : Int)
  if pow2 e ≤ |x| then e else e - 1

/-- Rounding to the nearest integer, ties to the even one. -/
def roundEven (q : ℚ) : Int :=
  let f := ⌊q⌋
  let r := q - (f : ℚ)
  if r < 1 / 2 then f else if 1 / 2 < r then f + 1 else if f % 2 = 0 then f else f + 1

/-- Rounding of a rational to the nearest binary64 value, ties to even
(53-bit significand, subnormals below `2 ^ (-1022)`; overflow to an infinity
is outside the model). -/
def roundF64 (x : ℚ) : ℚ :=
  if x = 0 then 0
  else
    let e := max (binExp x) (-1022)
    let q := pow2 (e - 52)
    ((roundEven (x / q) : Int) : ℚ) * q

/-! ## ShortestFilmReleaseGap -/

/-- A `time.Time`: seconds since 0001-01-01T00:00:00Z. -/
abbrev Time := Int

/-- A `time.Duration`: nanoseconds. -/
abbrev Duration := Int

/-- The largest `time.Duration`, `1<<63 - 1`. -/
def maxDuration : Duration := 9223372036854775807

/-- The smallest `time.Duration`, `-1 << 63`. -/
def minDuration : Duration := -9223372036854775808

/-- The constant `time.Hour` in nanoseconds. -/
def Hour : Duration := 3600000000000

/-- The leap-year test of package `time`. -/
def isLeap (year : Int) : Bool :=
  year % 4 = 0 && (year % 100 != 0 || year % 400 = 0)

/-- The table `daysBefore` of package `time`: days before the start of each
month in a non-leap year, with a final entry for the whole year. -/
def daysBefore : List Int := [0, 31, 59, 90, 120, 151, 181, 212, 243, 273, 304, 334, 365]

/-- The function `daysIn` of package `time`. -/
def daysIn (month : Int) (year : Int) : Int :=
  if month = 2 && isLeap year then 29
  else daysBefore.getD month.toNat 0 - daysBefore.getD (month.toNat - 1) 0

/-- Days from 0001-01-01 to the given (valid) civil date of the proleptic
Gregorian calendar. -/
def absDays (year month day : Int) : Int :=
  let y := year - 1
  365 * y + y / 4 - y / 100 + y / 400
    + daysBefore.getD (month.toNat - 1) 0
    + (if isLeap year && 3 ≤ month then 1 else 0)
    + (day - 1)

/-- The value of an ASCII digit. -/
def digitVal (c : Char) : Int := (c.toNat : Int) - 48

/-- The call `time.Parse("2006-01-02", value)`: four year digits, `-`, two
month digits, `-`, two day digits and nothing else; the month must be in
`1..12` and the day in `1..daysIn month year`.  The result is midnight UTC of
that date, `none` stands for a parse error. -/
def parseDate (value : String) : Option Time :=
  match value.toList with
  | [y1, y2, y3, y4, s1, m1, m2, s2, d1, d2] =>
    if y1.isDigit && y2.isDigit && y3.isDigit && y4.isDigit && s1 = '-'
        && m1.isDigit && m2.isDigit && s2 = '-' && d1.isDigit && d2.isDigit then
      let year := digitVal y1 * 1000 + digitVal y2 * 100 + digitVal y3 * 10 + digitVal y4
      let month := digitVal m1 * 10 + digitVal m2
      let day := digitVal d1 * 10 + digitVal d2
      if month ≤ 0 || 12 < month then none
      else if day < 1 || day > daysIn month year then none
      else some (absDays year month day * 86400)
    else none
  | _ => none

/-- The method `Time.Sub`: the difference `t - u` in nanoseconds, saturated
to the range of `Duration`. -/
def Sub (t u : Time) : Duration :=
  let d := (t - u) * 1000000000
  if d < minDuration then minDuration
  else if maxDuration < d then maxDuration
  else d

/-- The method `Duration.Hours`. -/
def Hours (d : Duration) : ℚ :=
  let hour := Int.tdiv d Hour
  let nsec := Int.tmod d Hour
  (hour : ℚ) + (nsec : ℚ) / (60 * 60 * 1000000000)

/-- The gap in days between two consecutive release dates,
`int(b.Sub(a).Hours() / 24)`. -/
def gapDays (a b : Time) : Int := intOfFloat (Hours (Sub b a) / 24)

/-- One iteration of the first loop of `ShortestFilmReleaseGap`; the state
is the slice `releaseDates`. -/
def releaseDatesStep (directorName : String) (releaseDates : List Time) (film : Film) :
    List Time :=
  if film.DirectorName = directorName then
    match parseDate film.ReleaseDate with
    | some date => releaseDates ++ [date]
    | none => releaseDates
  else releaseDates

/-- The slice `releaseDates` after the first loop of `ShortestFilmReleaseGap`. -/
def releaseDates (films : List Film) (directorName : String) : List Time :=
  films.foldl (releaseDatesStep directorName) []

/-- The call `sort.Slice(releaseDates, Before)`: the dates in ascending
order.  Equal instants are indistinguishable, so the outcome does not depend
on the sorting algorithm. -/
def sortDates (dates : List Time) : List Time :=
  dates.insertionSort (fun a b => a ≤ b)

/-- The second loop of `ShortestFilmReleaseGap`, for `i = 1 .. len - 1`, over
the sorted dates from position `i - 1` on; the state is `minGap`. -/
def minGapLoop : Int → List Time → Int
  | minGap, a :: b :: rest =>
    let gap := gapDays a b
    minGapLoop (if gap < minGap then gap else minGap) (b :: rest)
  | minGap, _ => minGap

/-- The Go function `ShortestFilmReleaseGap`. -/
def ShortestFilmReleaseGap (films : List Film) (directorName : String) : Int :=
  let dates := releaseDates films directorName
  if dates.length < 2 then 0
  else minGapLoop maxInt (sortDates dates)

/-! ## Example catalogs -/

/-- The three films of the doc comment of `ShortestFilmReleaseGap`. -/
def nolanFilms : List Film :=
  [⟨"Batman Begins", 140, 82 / 10, "2006-06-16", "Christopher Nolan"⟩,
   ⟨"Interstellar", 169, 86 / 10, "2014-11-07", "Christopher Nolan"⟩,
   ⟨"Prestige", 130, 85 / 10, "2006-11-10", "Christopher Nolan"⟩]

/-- Films `A` (rating 8.0) and `B` (rating 9.0), both directed by `X`. -/
def filmsAB : List Film :=
  [⟨"A", 100, 8, "2000-01-01", "X"⟩, ⟨"B", 100, 9, "2001-01-01", "X"⟩]

/-! ## Specification-side notions -/

/-- The ratings of the films directed by `directorName`, in catalog order. -/
def ratingsOf (films : List Film) (directorName : String) : List ℚ :=
  (films.filter (fun f => f.DirectorName = directorName)).map (fun f => f.Rating)

/-- The exact arithmetic mean of the ratings of the films directed by
`directorName`. -/
def meanRating (films : List Film) (directorName : String) : ℚ :=
  (ratingsOf films directorName).sum / ((ratingsOf films directorName).length : ℚ)

/-- Rounding to the nearest integer, ties away from zero. -/
def roundHalfAway (x : ℚ) : Int := if 0 ≤ x then ⌊x + 1 / 2⌋ else ⌈x - 1 / 2⌉

/-- The average rating as the specification words it: `round(m * 10) / 10`
for the exact mean `m`, ties away from zero. -/
def specAverageRating (films : List Film) (directorName : String) : ℚ :=
  ((roundHalfAway (meanRating films directorName * 10) : Int) : ℚ) / 10

/-- A single film of director `D` with the negative rating `-0.3`. -/
def negativeFilms : List Film := [⟨"N", 90, -3 / 10, "2000-01-01", "D"⟩]

/-- Two films of director `D` rated 8.05, as exact rationals (`fl = id`) or
as the nearest binary64 values (`fl = roundF64`), and a film of another
director. -/
def films805 (fl : ℚ → ℚ) : List Film :=
  [⟨"P", 100, fl (805 / 100), "2001-01-01", "D"⟩,
   ⟨"Q", 120, 3, "2002-02-02", "E"⟩,
   ⟨"R", 110, fl (805 / 100), "2003-03-03", "D"⟩]

/-- The parsed release date of a film, when the film is directed by
`directorName` and its release date parses. -/
def datedRelease (directorName : String) (film : Film) : Option Time :=
  if film.DirectorName = directorName then parseDate film.ReleaseDate else none

/-- The parsed release dates of the films directed by `directorName` whose
release date parses, in catalog order. -/
def matchingDates (films : List Film) (directorName : String) : List Time :=
  films.filterMap (datedRelease directorName)

/-- The number of whole calendar days from date `a` to date `b`. -/
def daysBetween (a b : Time) : Int := (b - a) / 86400

/-- The gaps in days between consecutive elements of a list of dates. -/
def adjacentGaps (dates : List Time) : List Int :=
  List.zipWith daysBetween dates dates.tail

/-- The absolute numbers of days between the dates at any two different
positions of a list of dates. -/
def pairGaps : List Time → List Int
  | [] => []
  | a :: rest => rest.map (fun b => |daysBetween a b|) ++ pairGaps rest

/-- The number of whole days in the largest `Duration` (about 292 years). -/
def maxGapDays : Int := 106751

/-- A catalog without any film of director `Nobody`. -/
def otherFilms : List Film :=
  [⟨"A", 100, 8, "2000-01-01", "X"⟩, ⟨"C", 95, 7, "2005-05-05", "Y"⟩]

/-- A catalog with a single film of director `Solo`, whose release date does
not parse. -/
def soloFilms : List Film :=
  [⟨"A", 100, 8, "2000-01-01", "X"⟩, ⟨"S", 95, 7, "next year", "Solo"⟩]

/-- A catalog with three films of director `M`, of which one has a release
date that parses. -/
def malformedFilms : List Film :=
  [⟨"U", 100, 8, "2000-13-01", "M"⟩, ⟨"V", 95, 7, "2005-05-05", "M"⟩,
   ⟨"W", 90, 6, "5 May 2006", "M"⟩]

/-- Two films of director `Z` released on 0001-01-01 and on 9999-12-31. -/
def farApartFilms : List Film :=
  [⟨"Old", 90, 5, "0001-01-01", "Z"⟩, ⟨"New", 90, 5, "9999-12-31", "Z"⟩]

/-! ## GetFilms -/

/-- The package-level variables `films` and `filmsOnce`; `onceDone` tells
whether `filmsOnce.Do` has already run its function. -/
structure Cache where
  films : List Film
  onceDone : Bool

/-- The package-level state when the process starts: `films` is nil and
`filmsOnce` has not run. -/
def initCache : Cache := ⟨[], false⟩

/-- The first component of what `fetchFilms` returns: the decoded films, or
nil next to an error. -/
def fetchedFilms (outcome : Except String (List Film)) : List Film :=
  match outcome with
  | .ok films => films
  | .error _ => []

/-- The Go function `GetFilms`.  `outcome` is what `fetchFilms` yields if it
is called now.  The result is the new package state, the returned slice, and
whether this call performed the fetch. -/
def GetFilms (outcome : Except String (List Film)) (c : Cache) : Cache × List Film × Bool :=
  if c.onceDone then (c, c.films, false)
  else (⟨fetchedFilms outcome, true⟩, fetchedFilms outcome, true)

/-- A sequence of `GetFilms` calls, one for each fetch outcome of the list:
what every call returned and whether it fetched. -/
def runGetFilms : Cache → List (Except String (List Film)) → List (List Film × Bool)
  | _, [] => []
  | c, outcome :: rest =>
    ((GetFilms outcome c).2.1, (GetFilms outcome c).2.2) :: runGetFilms (GetFilms outcome c).1 rest

/-! ## DirectorWithMostFilms -/

/-- One iteration of the first loop of `DirectorWithMostFilms`,
`count[film.DirectorName]++`.  The map `count` is modelled by its lookup
function, which is 0 at an absent key as in Go. -/
def countStep (count : String → Int) (film : Film) : String → Int :=
  Function.update count film.DirectorName (count film.DirectorName + 1)

/-- The map `count` after the first loop of `DirectorWithMostFilms`. -/
def directorCounts (films : List Film) : String → Int :=
  films.foldl countStep (fun _ => 0)

/-- The keys of the map `count`: the director names of the catalog, each
once. -/
def directorKeys (films : List Film) : List String :=
  (films.map (fun f => f.DirectorName)).dedup

/-- One iteration of the second loop of `DirectorWithMostFilms`; the state is
`(maxDir, max)`. -/
def maxDirStep (count : String → Int) (st : String × Int) (dir : String) : String × Int :=
  if count dir > st.2 then (dir, count dir) else st

/-- The Go function `DirectorWithMostFilms`.  The order in which `range`
visits the keys of the map is not specified by Go; it is the argument
`order`, which lists the keys of the map, each once, in some order. -/
def DirectorWithMostFilms (order : List String) (films : List Film) : String :=
  (order.foldl (maxDirStep (directorCounts films)) ("", 0)).1

/-- The number of films of the catalog directed by `directorName`. -/
def numFilms (films : List Film) (directorName : String) : Int :=
  ((films.filter (fun f => f.DirectorName = directorName)).length : Int)

/-- A catalog with three films of director `X`, two of `Y` and two of `Z`. -/
def countFilms : List Film :=
  [⟨"y1", 100, 7, "2001-01-01", "Y"⟩, ⟨"x1", 100, 8, "2002-01-01", "X"⟩,
   ⟨"z1", 100, 6, "2003-01-01", "Z"⟩, ⟨"x2", 100, 8, "2004-01-01", "X"⟩,
   ⟨"y2", 100, 7, "2005-01-01", "Y"⟩, ⟨"x3", 100, 9, "2006-01-01", "X"⟩,
   ⟨"z2", 100, 6, "2007-01-01", "Z"⟩]

/-- A catalog in which directors `Y` and `Z` both have two films and `X` has
one. -/
def tiedFilms : List Film :=
  [⟨"y1", 100, 7, "2001-01-01", "Y"⟩, ⟨"x1", 100, 8, "2002-01-01", "X"⟩,
   ⟨"z1", 100, 6, "2003-01-01", "Z"⟩, ⟨"y2", 100, 7, "2005-01-01", "Y"⟩,
   ⟨"z2", 100, 6, "2007-01-01", "Z"⟩]

/-- A catalog in which two films of director `X` share the best rating 9;
`first` comes before `second`. -/
def tiedRatings : List Film :=
  [⟨"low", 100, 7, "2001-01-01", "X"⟩, ⟨"other", 100, 10, "2002-01-01", "Y"⟩,
   ⟨"first", 100, 9, "2003-01-01", "X"⟩, ⟨"second", 100, 9, "2004-01-01", "X"⟩]

/-- A catalog with films of director `X`, of `x` in lower case, of `X`
followed by a blank, and of `Y`. -/
def mixedFilms : List Film :=
  [⟨"a", 100, 7, "2001-01-01", "X"⟩, ⟨"b", 100, 10, "2001-01-02", "x"⟩,
   ⟨"c", 100, 9, "2003-01-01", "X "⟩, ⟨"d", 100, 8, "2004-01-01", "X"⟩,
   ⟨"e", 100, 10, "2002-06-01", "Y"⟩]

/-! ## Rounding ties of the average rating -/

/-- The sum of the absolute values of the ratings of the films directed by
`directorName`. -/
def absRatingSum (films : List Film) (directorName : String) : ℚ :=
  ((ratingsOf films directorName).map (fun r => |r|)).sum

/-- A bound on the rounding error that the float64 operations of
`AverageRating` accumulate in `value * 10 + 0.5`: the number of matching films
plus the sum of the absolute values of their ratings, times `2 ^ (-46)`. -/
def roundingMargin (films : List Film) (directorName : String) : ℚ :=
  (((ratingsOf films directorName).length : ℚ) + absRatingSum films directorName) / 2 ^ 46

/-- Ten times the exact mean is away from a rounding tie: `10 * m + 1 / 2` is
farther than `roundingMargin` from every integer. -/
def awayFromTie (films : List Film) (directorName : String) : Prop :=
  roundingMargin films directorName < Int.fract (meanRating films directorName * 10 + 1 / 2) ∧
    Int.fract (meanRating films directorName * 10 + 1 / 2) < 1 - roundingMargin films directorName

/-- The property `awayFromTie` is decided by evaluating both sides. -/
instance awayFromTieDecidable (films : List Film) (directorName : String) :
    Decidable (awayFromTie films directorName) := by
  unfold awayFromTie
  infer_instance

/-- Invariant of the loop of `BestRatedFilm`: `found` is set exactly when a
matching film has been seen, and then `bestFilm` is a matching film whose
rating is maximal among the matching films seen. -/
theorem bestRated_fold_inv (d : String) (films : List Film) :
    ∀ st : Film × Bool, (st.2 = true → st.1.DirectorName = d) →
      ((films.foldl (bestRatedStep d) st).2 = true ↔
          st.2 = true ∨ ∃ f ∈ films, f.DirectorName = d) ∧
      ((films.foldl (bestRatedStep d) st).2 = true →
        ((films.foldl (bestRatedStep d) st).1 = st.1 ∧ st.2 = true ∨
            (films.foldl (bestRatedStep d) st).1 ∈ films) ∧
        (films.foldl (bestRatedStep d) st).1.DirectorName = d ∧
        (st.2 = true → st.1.Rating ≤ (films.foldl (bestRatedStep d) st).1.Rating) ∧
        ∀ g ∈ films, g.DirectorName = d →
          g.Rating ≤ (films.foldl (bestRatedStep d) st).1.Rating) := by
  induction films with
  | nil =>
    intro st hst
    simp
    intro h
    exact ⟨h, hst h⟩
  | cons film rest ih =>
    intro st hst
    simp only [List.foldl_cons]
    by_cases hm : film.DirectorName = d
    · by_cases hb : st.2 = false ∨ st.1.Rating < film.Rating
      · have hstep : bestRatedStep d st film = (film, true) := by
          unfold bestRatedStep
          rcases hb with hb | hb
          · simp [hm, hb]
          · simp [hm, hb]
        rw [hstep]
        obtain ⟨h1, h2⟩ := ih (film, true) (fun _ => hm)
        refine ⟨?_, ?_⟩
        · rw [h1]
          constructor
          · intro _
            exact Or.inr ⟨film, List.mem_cons_self _ _, hm⟩
          · intro _
            exact Or.inl rfl
        · intro hr
          obtain ⟨hmem, hdir, hge, hall⟩ := h2 hr
          refine ⟨?_, hdir, ?_, ?_⟩
          · right
            rcases hmem with ⟨he, _⟩ | hmem
            · rw [he]; exact List.mem_cons_self _ _
            · exact List.mem_cons_of_mem _ hmem
          · intro hs
            rcases hb with hb | hb
            · rw [hb] at hs; exact absurd hs (by simp)
            · exact le_trans (le_of_lt hb) (hge rfl)
          · intro g hg hgd
            rcases List.mem_cons.mp hg with rfl | hg
            · exact hge rfl
            · exact hall g hg hgd
      · push_neg at hb
        obtain ⟨hb1, hb2⟩ := hb
        have hb1 : st.2 = true := by simpa using hb1
        have hstep : bestRatedStep d st film = st := by
          unfold bestRatedStep
          simp [hm, hb1, not_lt.mpr hb2]
        rw [hstep]
        obtain ⟨h1, h2⟩ := ih st hst
        refine ⟨?_, ?_⟩
        · rw [h1]
          constructor
          · intro _; exact Or.inl hb1
          · intro _; exact Or.inl hb1
        · intro hr
          obtain ⟨hmem, hdir, hge, hall⟩ := h2 hr
          refine ⟨?_, hdir, hge, ?_⟩
          · rcases hmem with h | hmem
            · exact Or.inl h
            · exact Or.inr (List.mem_cons_of_mem _ hmem)
          · intro g hg hgd
            rcases List.mem_cons.mp hg with rfl | hg
            · exact le_trans hb2 (hge hb1)
            · exact hall g hg hgd
    · have hstep : bestRatedStep d st film = st := by
        unfold bestRatedStep
        simp [hm]
      rw [hstep]
      obtain ⟨h1, h2⟩ := ih st hst
      refine ⟨?_, ?_⟩
      · rw [h1]
        constructor
        · rintro (h | ⟨f, hf, hfd⟩)
          · exact Or.inl h
          · exact Or.inr ⟨f, List.mem_cons_of_mem _ hf, hfd⟩
        · rintro (h | ⟨f, hf, hfd⟩)
          · exact Or.inl h
          · rcases List.mem_cons.mp hf with rfl | hf
            · exact absurd hfd hm
            · exact Or.inr ⟨f, hf, hfd⟩
      · intro hr
        obtain ⟨hmem, hdir, hge, hall⟩ := h2 hr
        refine ⟨?_, hdir, hge, ?_⟩
        · rcases hmem with h | hmem
          · exact Or.inl h
          · exact Or.inr (List.mem_cons_of_mem _ hmem)
        · intro g hg hgd
          rcases List.mem_cons.mp hg with rfl | hg
          · exact absurd hgd hm
          · exact hall g hg hgd

/-- C1. When some film of the catalog is directed by `d`, `BestRatedFilm`
returns the name of a film of the catalog that is directed by `d` and whose
rating is at least the rating of every film of the catalog directed by `d`. -/
theorem bestRatedFilm_is_max (films : List Film) (d : String)
    (h : ∃ f ∈ films, f.DirectorName = d) :
    ∃ best ∈ films, best.DirectorName = d ∧ BestRatedFilm films d = best.Name ∧
      ∀ g ∈ films, g.DirectorName = d → g.Rating ≤ best.Rating := by
  obtain ⟨h1, h2⟩ := bestRated_fold_inv d films (zeroFilm, false) (by simp)
  have hfound : (films.foldl (bestRatedStep d) (zeroFilm, false)).2 = true :=
    h1.mpr (Or.inr h)
  obtain ⟨hmem, hdir, _, hall⟩ := h2 hfound
  refine ⟨(films.foldl (bestRatedStep d) (zeroFilm, false)).1, ?_, hdir, ?_, hall⟩
  · rcases hmem with ⟨_, hf⟩ | hmem
    · exact absurd hf (by simp)
    · exact hmem
  · simp [BestRatedFilm, hfound]

/-- C1, the example of the specification: with film `A` rated 8.0 and film
`B` rated 9.0, both directed by `X`, the best rated film of `X` is `B`. -/
theorem bestRatedFilm_is_max_witness :
    (∃ f ∈ filmsAB, f.DirectorName = "X") ∧
    (∃ best ∈ filmsAB, best.DirectorName = "X" ∧ BestRatedFilm filmsAB "X" = best.Name ∧
      ∀ g ∈ filmsAB, g.DirectorName = "X" → g.Rating ≤ best.Rating) ∧
    BestRatedFilm filmsAB "X" = "B" :=
  ⟨⟨⟨"A", 100, 8, "2000-01-01", "X"⟩, by simp [filmsAB], rfl⟩,
   bestRatedFilm_is_max filmsAB "X" ⟨⟨"A", 100, 8, "2000-01-01", "X"⟩, by simp [filmsAB], rfl⟩,
   by decide⟩

/-! ### AverageRating -/

/-- The loop of `AverageRating` only reads the ratings of the matching
films. -/
theorem average_fold_ratings (fl : ℚ → ℚ) (d : String) (films : List Film) :
    ∀ st : ℚ × Int, films.foldl (averageStep fl d) st =
      (ratingsOf films d).foldl (fun (s : ℚ × Int) r => (fl (s.1 + r), s.2 + 1)) st := by
  induction films with
  | nil => intro st; rfl
  | cons film rest ih =>
    intro st
    by_cases hm : film.DirectorName = d
    · have hr : ratingsOf (film :: rest) d = film.Rating :: ratingsOf rest d := by
        simp [ratingsOf, List.filter_cons, hm]
      rw [hr, List.foldl_cons, List.foldl_cons, ih]
      simp [averageStep, hm]
    · have hr : ratingsOf (film :: rest) d = ratingsOf rest d := by
        simp [ratingsOf, List.filter_cons, hm]
      rw [hr, List.foldl_cons, ih]
      simp [averageStep, hm]

/-- Two catalogs with the same matching ratings, in the same order, have the
same average rating. -/
theorem averageRating_congr (fl : ℚ → ℚ) (d : String) (c1 c2 : List Film)
    (h : ratingsOf c1 d = ratingsOf c2 d) :
    AverageRating fl c1 d = AverageRating fl c2 d := by
  unfold AverageRating
  rw [average_fold_ratings, average_fold_ratings, h]

/-- C3, evaluation at a negative mean.  For a single film rated `-0.3` the
code returns `-0.2`, in exact arithmetic and in binary64 arithmetic alike,
although the mean `-0.3` needs no rounding: `round(m * 10) / 10 = -0.3`. -/
theorem averageRating_negative_mean :
    meanRating negativeFilms "D" = -3 / 10 ∧
    specAverageRating negativeFilms "D" = -3 / 10 ∧
    AverageRating id negativeFilms "D" = -2 / 10 ∧
    AverageRating roundF64
      [⟨"N", 90, roundF64 (-3 / 10), "2000-01-01", "D"⟩] "D" = roundF64 (-2 / 10) := by
  refine ⟨by decide!, by decide!, by decide!, by decide!⟩

/-- C4. When the films directed by `d` are exactly two films rated 8.05, the
average rating is 8.1: in exact arithmetic (`fl = id`), and also in binary64
arithmetic (`fl = roundF64`), where 8.05 and 8.1 stand for the nearest
binary64 values. -/
theorem averageRating_805_805 (fl : ℚ → ℚ) (hfl : fl = id ∨ fl = roundF64)
    (films : List Film) (d : String)
    (h : ratingsOf films d = [fl (805 / 100), fl (805 / 100)]) :
    AverageRating fl films d = fl (81 / 10) := by
  have hc : ratingsOf films d = ratingsOf
      [⟨"", 0, fl (805 / 100), "", d⟩, ⟨"", 0, fl (805 / 100), "", d⟩] d := by
    rw [h]; simp [ratingsOf]
  rw [averageRating_congr fl d _ _ hc]
  simp only [AverageRating, averageStep, List.foldl, if_true]
  rcases hfl with rfl | rfl
  · decide!
  · decide!

/-- C4 at a catalog whose films of director `D` are two films rated 8.05, with
a film of another director between them. -/
theorem averageRating_805_805_witness :
    ratingsOf (films805 id) "D" = [id (805 / 100), id (805 / 100)] ∧
    AverageRating id (films805 id) "D" = 81 / 10 ∧
    AverageRating roundF64 (films805 roundF64) "D" = roundF64 (81 / 10) :=
  ⟨by decide!, averageRating_805_805 id (Or.inl rfl) (films805 id) "D" (by decide!),
   averageRating_805_805 roundF64 (Or.inr rfl) (films805 roundF64) "D" (by decide!)⟩

/-- The first loop of `ShortestFilmReleaseGap` appends the parsed dates of
the matching films, in catalog order. -/
theorem releaseDates_fold (d : String) (films : List Film) :
    ∀ acc : List Time, films.foldl (releaseDatesStep d) acc = acc ++ matchingDates films d := by
  induction films with
  | nil => intro acc; simp [matchingDates]
  | cons film rest ih =>
    intro acc
    rw [List.foldl_cons, ih]
    by_cases hm : film.DirectorName = d
    · cases hp : parseDate film.ReleaseDate with
      | none => simp [releaseDatesStep, matchingDates, datedRelease, hm, hp]
      | some t => simp [releaseDatesStep, matchingDates, datedRelease, hm, hp]
    · simp [releaseDatesStep, matchingDates, datedRelease, hm]

/-- The slice `releaseDates` holds the parsed dates of the matching films. -/
theorem releaseDates_eq (films : List Film) (d : String) :
    releaseDates films d = matchingDates films d := by
  simp [releaseDates, releaseDates_fold]

/-- A catalog without matching films leaves the state of the loop of
`BestRatedFilm` unchanged. -/
theorem bestRated_fold_no_match (d : String) (films : List Film)
    (h : ∀ f ∈ films, f.DirectorName ≠ d) :
    ∀ st : Film × Bool, films.foldl (bestRatedStep d) st = st := by
  induction films with
  | nil => intro st; rfl
  | cons film rest ih =>
    intro st
    have hm : film.DirectorName ≠ d := h film (List.mem_cons_self _ _)
    rw [List.foldl_cons, ih (fun f hf => h f (List.mem_cons_of_mem _ hf))]
    simp [bestRatedStep, hm]

/-- A catalog without matching films has no matching rating. -/
theorem ratingsOf_no_match (d : String) (films : List Film)
    (h : ∀ f ∈ films, f.DirectorName ≠ d) : ratingsOf films d = [] := by
  simp only [ratingsOf, List.map_eq_nil_iff, List.filter_eq_nil_iff]
  intro f hf
  simpa using h f hf

/-- The number of parsed dates is at most the number of matching films. -/
theorem matchingDates_length_le (films : List Film) (d : String) :
    (matchingDates films d).length ≤ (films.filter (fun f => f.DirectorName = d)).length := by
  induction films with
  | nil => simp [matchingDates]
  | cons film rest ih =>
    by_cases hm : film.DirectorName = d
    · cases hp : parseDate film.ReleaseDate with
      | none =>
        simp [matchingDates, datedRelease, hm, hp, List.filter_cons] at ih ⊢
        omega
      | some t =>
        simp [matchingDates, datedRelease, hm, hp, List.filter_cons] at ih ⊢
        omega
    · simp [matchingDates, datedRelease, hm, List.filter_cons] at ih ⊢
      omega

/-- C2. For a director without any film in the catalog, `BestRatedFilm`
returns the empty string, `AverageRating` returns 0 (whatever the rounding of
the arithmetic) and `ShortestFilmReleaseGap` returns 0; the three queries are
total functions, so none of them fails. -/
theorem no_match_sentinels (fl : ℚ → ℚ) (films : List Film) (d : String)
    (h : ∀ f ∈ films, f.DirectorName ≠ d) :
    BestRatedFilm films d = "" ∧ AverageRating fl films d = 0 ∧
      ShortestFilmReleaseGap films d = 0 := by
  refine ⟨?_, ?_, ?_⟩
  · simp [BestRatedFilm, bestRated_fold_no_match d films h]
  · unfold AverageRating
    rw [average_fold_ratings, ratingsOf_no_match d films h]
    simp
  · have hlen := matchingDates_length_le films d
    have hf : films.filter (fun f => f.DirectorName = d) = [] := by
      simp only [List.filter_eq_nil_iff]
      intro f hf
      simpa using h f hf
    rw [hf, List.length_nil] at hlen
    simp only [ShortestFilmReleaseGap, releaseDates_eq]
    rw [if_pos]
    omega

/-- C2 at a catalog with films of directors `X` and `Y` and the director
`Nobody`. -/
theorem no_match_sentinels_witness :
    (∀ f ∈ otherFilms, f.DirectorName ≠ "Nobody") ∧
    BestRatedFilm otherFilms "Nobody" = "" ∧ AverageRating id otherFilms "Nobody" = 0 ∧
      ShortestFilmReleaseGap otherFilms "Nobody" = 0 :=
  ⟨by decide, no_match_sentinels id otherFilms "Nobody" (by decide)⟩

/-- C8. For the three films of the doc comment (Batman Begins 2006-06-16,
Interstellar 2014-11-07, Prestige 2006-11-10, in that order, all directed by
Christopher Nolan) the shortest release gap is 147 days. -/
theorem shortestGap_nolan : ShortestFilmReleaseGap nolanFilms "Christopher Nolan" = 147 := by
  decide!

/-- C9. When fewer than two films of the catalog are directed by `d`, the
shortest release gap is 0, whatever their release date strings are. -/
theorem shortestGap_fewer_than_two (films : List Film) (d : String)
    (h : (films.filter (fun f => f.DirectorName = d)).length < 2) :
    ShortestFilmReleaseGap films d = 0 := by
  have hlen := matchingDates_length_le films d
  simp only [ShortestFilmReleaseGap, releaseDates_eq]
  rw [if_pos]
  omega

/-- C9 at a catalog with exactly one film of director `Solo`, whose release
date is not a date. -/
theorem shortestGap_fewer_than_two_witness :
    (soloFilms.filter (fun f => f.DirectorName = "Solo")).length < 2 ∧
    ShortestFilmReleaseGap soloFilms "Solo" = 0 :=
  ⟨by decide, shortestGap_fewer_than_two soloFilms "Solo" (by decide)⟩

/-- Removing the films whose release date does not parse keeps the parsed
dates of the matching films. -/
theorem matchingDates_filter_parseable (films : List Film) (d : String) :
    matchingDates (films.filter (fun f => (parseDate f.ReleaseDate).isSome)) d =
      matchingDates films d := by
  induction films with
  | nil => rfl
  | cons film rest ih =>
    unfold matchingDates at ih ⊢
    cases hp : parseDate film.ReleaseDate with
    | none => simp [List.filter_cons, hp, datedRelease, ih]
    | some t => simp [List.filter_cons, hp, List.filterMap_cons, ih]

/-- C10. `ShortestFilmReleaseGap` is a total function, so a release date that
does not parse makes no call fail; its result is the result over the catalog
from which every film with an unparseable release date has been removed, and
it is 0 when fewer than two matching films have a release date that parses. -/
theorem shortestGap_skips_unparseable (films : List Film) (d : String) :
    ShortestFilmReleaseGap films d =
        ShortestFilmReleaseGap (films.filter (fun f => (parseDate f.ReleaseDate).isSome)) d ∧
      ((matchingDates films d).length < 2 → ShortestFilmReleaseGap films d = 0) := by
  constructor
  · simp only [ShortestFilmReleaseGap, releaseDates_eq, matchingDates_filter_parseable]
  · intro h
    simp only [ShortestFilmReleaseGap, releaseDates_eq]
    rw [if_pos h]

/-- C10 at a catalog with three films of director `M`, two of which have a
release date that does not parse. -/
theorem shortestGap_skips_unparseable_witness :
    (malformedFilms.filter (fun f => f.DirectorName = "M")).length = 3 ∧
    malformedFilms.filter (fun f => (parseDate f.ReleaseDate).isSome) =
      [⟨"V", 95, 7, "2005-05-05", "M"⟩] ∧
    (matchingDates malformedFilms "M").length < 2 ∧
    ShortestFilmReleaseGap malformedFilms "M" = 0 :=
  ⟨by decide!, by decide!, by decide!,
   (shortestGap_skips_unparseable malformedFilms "M").2 (by decide!)⟩

/-- A parsed date is a midnight: a whole number of days. -/
theorem parseDate_dvd (s : String) (t : Time) (h : parseDate s = some t) :
    (86400 : Int) ∣ t := by
  unfold parseDate at h
  split at h
  · split at h
    · simp only at h
      split at h
      · exact absurd h (by simp)
      · split at h
        · exact absurd h (by simp)
        · simp only [Option.some.injEq] at h
          exact ⟨_, by rw [← h, mul_comm]⟩
    · exact absurd h (by simp)
  · exact absurd h (by simp)

/-- Every parsed release date is a whole number of days. -/
theorem matchingDates_dvd (films : List Film) (d : String) :
    ∀ t ∈ matchingDates films d, (86400 : Int) ∣ t := by
  intro t ht
  simp only [matchingDates, List.mem_filterMap, datedRelease] at ht
  obtain ⟨f, _, hf⟩ := ht
  split at hf
  · exact parseDate_dvd _ _ hf
  · exact absurd hf (by simp)

/-- The truncation of an integer is that integer. -/
theorem truncate_intCast (k : Int) : truncate (k : ℚ) = k := by
  unfold truncate
  split <;> simp

/-- The conversion `int(x)` of an integer in the 64-bit range is that
integer. -/
theorem intOfFloat_intCast (k : Int) (h1 : -9223372036854775808 ≤ k)
    (h2 : k ≤ 9223372036854775807) : intOfFloat (k : ℚ) = k := by
  unfold intOfFloat minInt maxInt
  rw [truncate_intCast, if_pos ⟨h1, h2⟩]

/-- The largest `Duration` is 106751 whole days. -/
theorem gapDays_saturated : intOfFloat (Hours maxDuration / 24) = maxGapDays := by
  decide!

/-- The gap computed by the code between two midnights `a ≤ b`: the number of
days between them, capped at the 106751 whole days of the largest
`Duration`. -/
theorem gapDays_eq (a b : Int) (hab : a ≤ b) (ha : (86400 : Int) ∣ a) (hb : (86400 : Int) ∣ b) :
    gapDays a b = min (daysBetween a b) maxGapDays := by
  obtain ⟨k, hk⟩ : (86400 : Int) ∣ b - a := Int.dvd_sub hb ha
  have hk0 : 0 ≤ k := by omega
  have hdb : daysBetween a b = k := by
    unfold daysBetween
    rw [hk]
    exact Int.mul_ediv_cancel_left k (by norm_num)
  rw [hdb]
  unfold gapDays
  by_cases hcap : k ≤ 106751
  · have hsub : Sub b a = k * 24 * Hour := by
      show (if (b - a) * 1000000000 < (-9223372036854775808 : Int) then
          (-9223372036854775808 : Int)
        else if (9223372036854775807 : Int) < (b - a) * 1000000000 then
          (9223372036854775807 : Int)
        else (b - a) * 1000000000) = k * 24 * (3600000000000 : Int)
      rw [hk]
      split_ifs <;> omega
    have hh : Hours (Sub b a) = ((k * 24 : Int) : ℚ) := by
      unfold Hours
      rw [hsub]
      have h1 : Int.tdiv (k * 24 * Hour) Hour = k * 24 :=
        Int.mul_tdiv_cancel _ (by unfold Hour; norm_num)
      have h2 : Int.tmod (k * 24 * Hour) Hour = 0 := Int.mul_tmod_left _ _
      simp only [h1, h2]
      simp
    rw [hh]
    have : (((k * 24 : Int) : ℚ)) / 24 = (k : ℚ) := by push_cast; field_simp
    rw [this, intOfFloat_intCast k (by omega) (by omega)]
    unfold maxGapDays
    omega
  · have hsub : Sub b a = maxDuration := by
      show (if (b - a) * 1000000000 < (-9223372036854775808 : Int) then
          (-9223372036854775808 : Int)
        else if (9223372036854775807 : Int) < (b - a) * 1000000000 then
          (9223372036854775807 : Int)
        else (b - a) * 1000000000) = (9223372036854775807 : Int)
      rw [hk]
      split_ifs <;> omega
    rw [hsub, gapDays_saturated]
    unfold maxGapDays
    omega

/-- The second loop of `ShortestFilmReleaseGap` folds `min` over the gaps
between consecutive dates. -/
theorem minGapLoop_eq (l : List Time) :
    ∀ m : Int, minGapLoop m l = (List.zipWith gapDays l l.tail).foldl min m := by
  induction l with
  | nil => intro m; rfl
  | cons a rest ih =>
    intro m
    cases rest with
    | nil => rfl
    | cons b rest2 =>
      have hmin : (if gapDays a b < m then gapDays a b else m) = min m (gapDays a b) := by
        rcases lt_or_le (gapDays a b) m with h | h
        · rw [if_pos h, min_eq_right (le_of_lt h)]
        · rw [if_neg (not_lt.mpr h), min_eq_left h]
      simp only [minGapLoop, List.tail_cons, List.zipWith_cons_cons, List.foldl_cons, hmin]
      exact ih _

/-- A fold of `min` computes the minimum of the start value and the list. -/
theorem foldl_min_coe (g : List Int) :
    ∀ m : Int, ((g.foldl min m : Int) : WithTop Int) = min (m : WithTop Int) g.minimum := by
  induction g with
  | nil => intro m; simp
  | cons a rest ih =>
    intro m
    rw [List.foldl_cons, ih, List.minimum_cons, WithTop.coe_min, min_assoc]

/-- Over sorted midnights the gaps computed by the code are the day
differences of consecutive dates, each capped at 106751. -/
theorem zipWith_gapDays_sorted (l : List Int) (hs : l.Sorted (fun a b => a ≤ b))
    (hd : ∀ t ∈ l, (86400 : Int) ∣ t) :
    List.zipWith gapDays l l.tail = (adjacentGaps l).map (fun g => min g maxGapDays) := by
  induction l with
  | nil => rfl
  | cons a rest ih =>
    cases rest with
    | nil => rfl
    | cons b rest2 =>
      have hab : a ≤ b := (List.sorted_cons.mp hs).1 b (List.mem_cons_self _ _)
      have hgap := gapDays_eq a b hab (hd a (List.mem_cons_self _ _))
        (hd b (List.mem_cons_of_mem _ (List.mem_cons_self _ _)))
      have ih2 := ih hs.of_cons (fun t ht => hd t (List.mem_cons_of_mem _ ht))
      simp only [adjacentGaps, List.tail_cons, List.zipWith_cons_cons, List.map_cons] at ih2 ⊢
      rw [hgap, ih2]

/-- The code's result for a director with at least two dated films is the
minimum of the capped gaps between consecutive sorted dates. -/
theorem shortestGap_adjacent (films : List Film) (d : String)
    (h : 2 ≤ (matchingDates films d).length) :
    (((adjacentGaps (sortDates (matchingDates films d))).map
        (fun g => min g maxGapDays)).minimum : WithTop Int) =
      ((ShortestFilmReleaseGap films d : Int) : WithTop Int) := by
  have hperm : (sortDates (matchingDates films d)).Perm (matchingDates films d) :=
    List.perm_insertionSort _ _
  have hs : (sortDates (matchingDates films d)).Sorted (fun a b => a ≤ b) :=
    List.sorted_insertionSort _ _
  have hd : ∀ t ∈ sortDates (matchingDates films d), (86400 : Int) ∣ t :=
    fun t ht => matchingDates_dvd films d t (hperm.mem_iff.mp ht)
  have hlen : 2 ≤ (sortDates (matchingDates films d)).length := by
    rw [hperm.length_eq]; exact h
  simp only [ShortestFilmReleaseGap, releaseDates_eq]
  rw [if_neg (by omega), minGapLoop_eq, foldl_min_coe, zipWith_gapDays_sorted _ hs hd]
  symm
  apply min_eq_right
  generalize sortDates (matchingDates films d) = l at hlen
  match l, hlen with
  | a :: b :: rest, _ =>
    simp only [adjacentGaps, List.tail_cons, List.zipWith_cons_cons, List.map_cons]
    refine le_trans (List.minimum_le_of_mem' (List.mem_cons_self _ _)) ?_
    rw [WithTop.coe_le_coe]
    refine le_trans (min_le_right _ _) ?_
    unfold maxGapDays maxInt
    norm_num

/-- C6, evaluation at the failing input.  For two films of one director
released on 0001-01-01 and on 9999-12-31 the two parsed dates are 3652058
whole calendar days apart, and the code returns 106751. -/
theorem shortestGap_adjacent_saturates :
    2 ≤ (matchingDates farApartFilms "Z").length ∧
    ((adjacentGaps (sortDates (matchingDates farApartFilms "Z"))).minimum : WithTop Int) =
      ((3652058 : Int) : WithTop Int) ∧
    ShortestFilmReleaseGap farApartFilms "Z" = 106751 ∧
    ((adjacentGaps (sortDates (matchingDates farApartFilms "Z"))).minimum : WithTop Int) ≠
      ((ShortestFilmReleaseGap farApartFilms "Z" : Int) : WithTop Int) := by
  refine ⟨by decide!, by decide!, by decide!, by decide!⟩

/-- The day difference is symmetric in absolute value. -/
theorem abs_daysBetween_comm (a b : Int) (ha : (86400 : Int) ∣ a) (hb : (86400 : Int) ∣ b) :
    |daysBetween a b| = |daysBetween b a| := by
  obtain ⟨k, hk⟩ : (86400 : Int) ∣ b - a := Int.dvd_sub hb ha
  have h1 : daysBetween a b = k := by
    unfold daysBetween
    rw [hk]
    exact Int.mul_ediv_cancel_left k (by norm_num)
  have h2 : daysBetween b a = -k := by
    unfold daysBetween
    have : a - b = 86400 * -k := by omega
    rw [this]
    exact Int.mul_ediv_cancel_left (-k) (by norm_num)
  rw [h1, h2, abs_neg]

/-- The gaps between all pairs of positions do not depend, as a collection,
on the order of the dates. -/
theorem pairGaps_perm (l1 l2 : List Int) (hp : l1.Perm l2)
    (hd : ∀ t ∈ l1, (86400 : Int) ∣ t) : (pairGaps l1).Perm (pairGaps l2) := by
  induction hp with
  | nil => exact List.Perm.refl _
  | cons a hp ih =>
    simp only [pairGaps]
    exact List.Perm.append (hp.map _) (ih (fun t ht => hd t (List.mem_cons_of_mem _ ht)))
  | swap a b l =>
    have hab : |daysBetween b a| = |daysBetween a b| :=
      abs_daysBetween_comm b a (hd b (by simp)) (hd a (by simp))
    simp only [pairGaps, List.map_cons, List.cons_append, hab]
    refine List.Perm.cons _ ?_
    rw [← List.append_assoc, ← List.append_assoc]
    exact List.Perm.append_right _ List.perm_append_comm
  | trans hp1 _ ih1 ih2 =>
    exact (ih1 hd).trans (ih2 (fun t ht => hd t (hp1.mem_iff.mpr ht)))

/-- The day difference from an earlier to a later date is not negative. -/
theorem daysBetween_nonneg (a b : Int) (hab : a ≤ b) : 0 ≤ daysBetween a b := by
  unfold daysBetween
  exact Int.ediv_nonneg (by omega) (by norm_num)

/-- The day difference grows with the later date. -/
theorem daysBetween_mono (a b c : Int) (hbc : b ≤ c) : daysBetween a b ≤ daysBetween a c := by
  unfold daysBetween
  exact Int.ediv_le_ediv (by norm_num) (by omega)

/-- In a sorted list every gap between consecutive dates is a gap between two
positions. -/
theorem adjacentGaps_subset_pairGaps (l : List Int) (hs : l.Sorted (fun a b => a ≤ b)) :
    ∀ g ∈ adjacentGaps l, g ∈ pairGaps l := by
  induction l with
  | nil => intro g hg; simp [adjacentGaps] at hg
  | cons a rest ih =>
    cases rest with
    | nil => intro g hg; simp [adjacentGaps] at hg
    | cons b rest2 =>
      intro g hg
      have hab : a ≤ b := (List.sorted_cons.mp hs).1 b (List.mem_cons_self _ _)
      simp only [adjacentGaps, List.tail_cons, List.zipWith_cons_cons, List.mem_cons] at hg
      rw [pairGaps, List.mem_append]
      rcases hg with rfl | hg
      · left
        simp only [List.map_cons, List.mem_cons]
        left
        exact (abs_of_nonneg (daysBetween_nonneg a b hab)).symm
      · right
        exact ih hs.of_cons g hg

/-- In a sorted list every gap between two positions is at least some gap
between consecutive dates. -/
theorem pairGaps_ge_adjacent (l : List Int) (hs : l.Sorted (fun a b => a ≤ b)) :
    ∀ g ∈ pairGaps l, ∃ g2 ∈ adjacentGaps l, g2 ≤ g := by
  induction l with
  | nil => intro g hg; simp [pairGaps] at hg
  | cons a rest ih =>
    cases rest with
    | nil => intro g hg; simp [pairGaps] at hg
    | cons b rest2 =>
      intro g hg
      have hsa := List.sorted_cons.mp hs
      have hab : a ≤ b := hsa.1 b (List.mem_cons_self _ _)
      rw [pairGaps, List.mem_append] at hg
      rcases hg with hg | hg
      · obtain ⟨y, hy, rfl⟩ := List.mem_map.mp hg
        have hby : b ≤ y := by
          rcases List.mem_cons.mp hy with rfl | hy2
          · exact le_refl _
          · exact (List.sorted_cons.mp hsa.2).1 y hy2
        refine ⟨daysBetween a b, ?_, ?_⟩
        · simp [adjacentGaps]
        · rw [abs_of_nonneg (daysBetween_nonneg a y (le_trans hab hby))]
          exact daysBetween_mono a b y hby
      · obtain ⟨g2, hg2, hle⟩ := ih hsa.2 g hg
        refine ⟨g2, ?_, hle⟩
        simp only [adjacentGaps, List.tail_cons, List.zipWith_cons_cons, List.mem_cons]
        right
        exact hg2

/-- The code's result for a director with at least two dated films is the
minimum of the capped gaps between the dates at any two different
positions. -/
theorem shortestGap_pairs (films : List Film) (d : String)
    (h : 2 ≤ (matchingDates films d).length) :
    (((pairGaps (matchingDates films d)).map (fun g => min g maxGapDays)).minimum :
        WithTop Int) =
      ((ShortestFilmReleaseGap films d : Int) : WithTop Int) := by
  have hperm : (sortDates (matchingDates films d)).Perm (matchingDates films d) :=
    List.perm_insertionSort _ _
  have hs : (sortDates (matchingDates films d)).Sorted (fun a b => a ≤ b) :=
    List.sorted_insertionSort _ _
  have hd : ∀ t ∈ sortDates (matchingDates films d), (86400 : Int) ∣ t :=
    fun t ht => matchingDates_dvd films d t (hperm.mem_iff.mp ht)
  have hpg := pairGaps_perm _ _ hperm hd
  obtain ⟨hmem, hmin⟩ := List.minimum_eq_coe_iff.mp (shortestGap_adjacent films d h)
  rw [List.minimum_eq_coe_iff]
  constructor
  · obtain ⟨g, hg, hge⟩ := List.mem_map.mp hmem
    exact List.mem_map.mpr
      ⟨g, hpg.mem_iff.mp (adjacentGaps_subset_pairGaps _ hs g hg), hge⟩
  · intro c hc
    obtain ⟨g, hg, rfl⟩ := List.mem_map.mp hc
    obtain ⟨g2, hg2, hle⟩ := pairGaps_ge_adjacent _ hs g (hpg.mem_iff.mpr hg)
    exact le_trans (hmin _ (List.mem_map.mpr ⟨g2, hg2, rfl⟩)) (min_le_min_right _ hle)

/-- C7, evaluation at the failing input.  For two films of one director
released on 0001-01-01 and on 9999-12-31 the only pair of releases is 3652058
days apart, and the code returns 106751. -/
theorem shortestGap_any_pair_saturates :
    2 ≤ (matchingDates farApartFilms "Z").length ∧
    ((pairGaps (matchingDates farApartFilms "Z")).minimum : WithTop Int) =
      ((3652058 : Int) : WithTop Int) ∧
    ShortestFilmReleaseGap farApartFilms "Z" = 106751 ∧
    ((pairGaps (matchingDates farApartFilms "Z")).minimum : WithTop Int) ≠
      ((ShortestFilmReleaseGap farApartFilms "Z" : Int) : WithTop Int) := by
  refine ⟨by decide!, by decide!, by decide!, by decide!⟩

/-! ### GetFilms -/

/-- Once `filmsOnce` has run, every later call returns the cached slice and
does not fetch, whatever a fetch would yield. -/
theorem runGetFilms_done (films : List Film) (outcomes : List (Except String (List Film))) :
    runGetFilms ⟨films, true⟩ outcomes = List.replicate outcomes.length (films, false) := by
  induction outcomes with
  | nil => rfl
  | cons o rest ih =>
    simp only [runGetFilms, GetFilms, if_true, List.length_cons, List.replicate_succ]
    rw [ih]

/-- C13. In a sequence of `GetFilms` calls that starts from the initial
package state, the first call performs the fetch and no later call does,
whatever a later fetch would yield; every call returns what the first fetch
produced: the fetched catalog if it succeeded and the empty catalog if it
failed.  The result carries no error. -/
theorem getFilms_fetch_once (first : Except String (List Film))
    (later : List (Except String (List Film))) :
    runGetFilms initCache (first :: later) =
        (fetchedFilms first, true) :: List.replicate later.length (fetchedFilms first, false) ∧
      (∀ films, first = .ok films → fetchedFilms first = films) ∧
      (∀ e, first = .error e → fetchedFilms first = []) := by
  refine ⟨?_, ?_, ?_⟩
  · simp only [runGetFilms, GetFilms, initCache, Bool.false_eq_true, if_false]
    rw [runGetFilms_done]
  · intro films h; rw [h]; rfl
  · intro e h; rw [h]; rfl

/-- C13 at a failed first fetch followed by two calls whose fetch would
succeed, and at a successful first fetch followed by a call whose fetch would
fail. -/
theorem getFilms_fetch_once_witness :
    runGetFilms initCache [.error "timeout", .ok filmsAB, .ok nolanFilms] =
        [([], true), ([], false), ([], false)] ∧
      runGetFilms initCache [.ok filmsAB, .error "timeout"] =
        [(filmsAB, true), (filmsAB, false)] :=
  ⟨(getFilms_fetch_once (.error "timeout") [.ok filmsAB, .ok nolanFilms]).1,
   (getFilms_fetch_once (.ok filmsAB) [.error "timeout"]).1⟩

/-! ### DirectorWithMostFilms -/

/-- The first loop of `DirectorWithMostFilms` adds to every entry of the map
the number of films of that director. -/
theorem directorCounts_fold (films : List Film) :
    ∀ (m : String → Int) (d : String),
      films.foldl countStep m d = m d + numFilms films d := by
  induction films with
  | nil => intro m d; simp [numFilms]
  | cons film rest ih =>
    intro m d
    rw [List.foldl_cons, ih]
    by_cases hm : film.DirectorName = d
    · subst hm
      simp [countStep, numFilms, List.filter_cons]
      ring
    · have hd : d ≠ film.DirectorName := fun h => hm h.symm
      simp [countStep, numFilms, List.filter_cons, hm, Function.update_noteq hd]

/-- The map `count` holds, for every director, the number of films of that
director in the catalog. -/
theorem directorCounts_eq (films : List Film) (d : String) :
    directorCounts films d = numFilms films d := by
  simp [directorCounts, directorCounts_fold]

/-- The keys of the map `count` are the director names that occur in the
catalog. -/
theorem mem_directorKeys (films : List Film) (d : String) :
    d ∈ directorKeys films ↔ ∃ f ∈ films, f.DirectorName = d := by
  simp [directorKeys]

/-- A director has a positive number of films exactly when the name occurs
in the catalog. -/
theorem numFilms_pos_iff (films : List Film) (d : String) :
    0 < numFilms films d ↔ ∃ f ∈ films, f.DirectorName = d := by
  unfold numFilms
  rw [Int.natCast_pos, List.length_pos_iff_exists_mem]
  constructor
  · rintro ⟨f, hf⟩
    obtain ⟨hf1, hf2⟩ := List.mem_filter.mp hf
    exact ⟨f, hf1, by simpa using hf2⟩
  · rintro ⟨f, hf1, hf2⟩
    exact ⟨f, List.mem_filter.mpr ⟨hf1, by simpa using hf2⟩⟩

/-- The second loop of `DirectorWithMostFilms`: either no key has a count
above the initial `max` and the state is unchanged, or the final `maxDir` is
the first key of the iteration order whose count is the largest. -/
theorem maxDir_fold (c : String → Int) (order : List String) :
    ∀ st : String × Int,
      (order.foldl (maxDirStep c) st = st ∧ ∀ d ∈ order, c d ≤ st.2) ∨
      (∃ pre post, order = pre ++ (order.foldl (maxDirStep c) st).1 :: post ∧
        (order.foldl (maxDirStep c) st).2 = c (order.foldl (maxDirStep c) st).1 ∧
        st.2 < c (order.foldl (maxDirStep c) st).1 ∧
        (∀ d ∈ pre, c d < c (order.foldl (maxDirStep c) st).1) ∧
        (∀ d ∈ post, c d ≤ c (order.foldl (maxDirStep c) st).1)) := by
  induction order with
  | nil => intro st; left; simp
  | cons dir rest ih =>
    intro st
    rw [List.foldl_cons]
    by_cases hgt : c dir > st.2
    · have hstep : maxDirStep c st dir = (dir, c dir) := by simp [maxDirStep, hgt]
      rw [hstep]
      rcases ih (dir, c dir) with ⟨heq, hall⟩ | ⟨pre, post, hsplit, hval, hlt, hpre, hpost⟩
      · right
        rw [heq]
        exact ⟨[], rest, rfl, rfl, hgt, by simp, hall⟩
      · right
        refine ⟨dir :: pre, post, ?_, hval, lt_trans hgt hlt, ?_, hpost⟩
        · rw [List.cons_append, ← hsplit]
        · intro d hd
          rcases List.mem_cons.mp hd with rfl | hd
          · exact hlt
          · exact hpre d hd
    · have hstep : maxDirStep c st dir = st := by simp [maxDirStep, hgt]
      rw [hstep]
      have hle : c dir ≤ st.2 := not_lt.mp hgt
      rcases ih st with ⟨heq, hall⟩ | ⟨pre, post, hsplit, hval, hlt, hpre, hpost⟩
      · left
        refine ⟨heq, ?_⟩
        intro d hd
        rcases List.mem_cons.mp hd with rfl | hd
        · exact hle
        · exact hall d hd
      · right
        refine ⟨dir :: pre, post, ?_, hval, hlt, ?_, hpost⟩
        · rw [List.cons_append, ← hsplit]
        · intro d hd
          rcases List.mem_cons.mp hd with rfl | hd
          · exact lt_of_le_of_lt hle hlt
          · exact hpre d hd

/-- For a non-empty catalog and an iteration order of the keys, the result
of `DirectorWithMostFilms` splits the order: the keys before it have strictly
fewer films, the keys after it have at most as many, and it has at least one
film. -/
theorem directorWithMostFilms_split (order : List String) (films : List Film)
    (hne : films ≠ []) (ho : order.Perm (directorKeys films)) :
    ∃ pre post, order = pre ++ DirectorWithMostFilms order films :: post ∧
      0 < numFilms films (DirectorWithMostFilms order films) ∧
      (∀ d ∈ pre, numFilms films d < numFilms films (DirectorWithMostFilms order films)) ∧
      (∀ d ∈ post, numFilms films d ≤ numFilms films (DirectorWithMostFilms order films)) := by
  have hc : directorCounts films = numFilms films := funext (directorCounts_eq films)
  unfold DirectorWithMostFilms
  rw [hc]
  rcases maxDir_fold (numFilms films) order ("", 0) with
    ⟨_, hall⟩ | ⟨pre, post, hsplit, _, hlt, hpre, hpost⟩
  · exfalso
    obtain ⟨f, rest, rfl⟩ := List.exists_cons_of_ne_nil hne
    have hk : f.DirectorName ∈ order :=
      ho.mem_iff.mpr ((mem_directorKeys _ _).mpr ⟨f, List.mem_cons_self _ _, rfl⟩)
    have hpos := (numFilms_pos_iff (f :: rest) f.DirectorName).mpr
      ⟨f, List.mem_cons_self _ _, rfl⟩
    have := hall _ hk
    simp only at this
    omega
  · exact ⟨pre, post, hsplit, hlt, hpre, hpost⟩

/-- For a non-empty catalog the result of `DirectorWithMostFilms` has at
least as many films as any director. -/
theorem directorWithMostFilms_ge (order : List String) (films : List Film)
    (hne : films ≠ []) (ho : order.Perm (directorKeys films)) (d : String) :
    numFilms films d ≤ numFilms films (DirectorWithMostFilms order films) := by
  obtain ⟨pre, post, hsplit, hpos, hpre, hpost⟩ :=
    directorWithMostFilms_split order films hne ho
  by_cases hd : d ∈ order
  · rw [hsplit] at hd
    rcases List.mem_append.mp hd with h | h
    · exact le_of_lt (hpre d h)
    · rcases List.mem_cons.mp h with h | h
      · rw [h]
      · exact hpost d h
  · have hz : ¬ 0 < numFilms films d := by
      rw [numFilms_pos_iff, ← mem_directorKeys]
      exact fun h => hd (ho.mem_iff.mpr h)
    omega

/-- C11. For a non-empty catalog and every iteration order of the map of
counts, `DirectorWithMostFilms` returns a director name that occurs in the
catalog and has at least as many films as every director name; when one
director has strictly more films than every other, the result is that
director. -/
theorem directorWithMostFilms_is_max (order : List String) (films : List Film)
    (hne : films ≠ []) (ho : order.Perm (directorKeys films)) :
    (∃ f ∈ films, f.DirectorName = DirectorWithMostFilms order films) ∧
      (∀ d, numFilms films d ≤ numFilms films (DirectorWithMostFilms order films)) ∧
      (∀ top, (∀ d, d ≠ top → numFilms films d < numFilms films top) →
        DirectorWithMostFilms order films = top) := by
  obtain ⟨_, _, _, hpos, _, _⟩ := directorWithMostFilms_split order films hne ho
  have hge := directorWithMostFilms_ge order films hne ho
  refine ⟨(numFilms_pos_iff _ _).mp hpos, hge, ?_⟩
  intro top htop
  by_contra hne2
  have h1 := htop _ hne2
  have h2 := hge top
  omega

/-- C11 at a catalog with three films of `X`, two of `Y` and two of `Z`: for
the iteration orders `Y, X, Z` and `Z, Y, X` the result is `X`. -/
theorem directorWithMostFilms_is_max_witness :
    countFilms ≠ [] ∧ ["Y", "X", "Z"].Perm (directorKeys countFilms) ∧
      DirectorWithMostFilms ["Y", "X", "Z"] countFilms = "X" ∧
      DirectorWithMostFilms ["Z", "Y", "X"] countFilms = "X" ∧
      ((∃ f ∈ countFilms, f.DirectorName = DirectorWithMostFilms ["Y", "X", "Z"] countFilms) ∧
        (∀ d, numFilms countFilms d ≤
          numFilms countFilms (DirectorWithMostFilms ["Y", "X", "Z"] countFilms)) ∧
        (∀ top, (∀ d, d ≠ top → numFilms countFilms d < numFilms countFilms top) →
          DirectorWithMostFilms ["Y", "X", "Z"] countFilms = top)) :=
  ⟨by decide, by decide, by decide, by decide,
   directorWithMostFilms_is_max ["Y", "X", "Z"] countFilms (by decide) (by decide)⟩

/-- C12. On the empty catalog `DirectorWithMostFilms` returns the empty
string: the map of counts has no key, and whatever names the loop were to
visit, no count exceeds 0. -/
theorem directorWithMostFilms_empty (order : List String) :
    directorKeys [] = [] ∧ DirectorWithMostFilms order [] = "" := by
  refine ⟨rfl, ?_⟩
  unfold DirectorWithMostFilms
  rcases maxDir_fold (directorCounts []) order ("", 0) with
    ⟨heq, _⟩ | ⟨_, _, _, _, hlt, _, _⟩
  · rw [heq]
  · rw [directorCounts_eq] at hlt
    simp [numFilms] at hlt

/-- C16. For a non-empty catalog and every iteration order of the map of
counts, the result of `DirectorWithMostFilms` has the highest film count, and
among the directors with the highest film count it is the one that comes
first in the iteration order. -/
theorem directorWithMostFilms_first (order : List String) (films : List Film)
    (hne : films ≠ []) (ho : order.Perm (directorKeys films)) :
    (∀ e, numFilms films e ≤ numFilms films (DirectorWithMostFilms order films)) ∧
      ∀ d, (∀ e, numFilms films e ≤ numFilms films d) →
        order.indexOf (DirectorWithMostFilms order films) ≤ order.indexOf d := by
  refine ⟨directorWithMostFilms_ge order films hne ho, ?_⟩
  intro d hd
  obtain ⟨pre, post, hsplit, _, hpre, _⟩ := directorWithMostFilms_split order films hne ho
  have hd2 : d ∉ pre := by
    intro hmem
    have h1 := hpre d hmem
    have h2 := hd (DirectorWithMostFilms order films)
    omega
  have hr : DirectorWithMostFilms order films ∉ pre := by
    intro hmem
    have h1 := hpre _ hmem
    omega
  generalize DirectorWithMostFilms order films = r at hsplit hr
  rw [hsplit, List.indexOf_append_of_not_mem hr, List.indexOf_append_of_not_mem hd2,
    List.indexOf_cons_self]
  omega

/-- C16 at a catalog in which `Y` and `Z` both have two films and `X` has
one: the iteration order `Z, Y, X` gives `Z` and the order `X, Y, Z` gives
`Y`. -/
theorem directorWithMostFilms_first_witness :
    tiedFilms ≠ [] ∧ ["Z", "Y", "X"].Perm (directorKeys tiedFilms) ∧
      DirectorWithMostFilms ["Z", "Y", "X"] tiedFilms = "Z" ∧
      DirectorWithMostFilms ["X", "Y", "Z"] tiedFilms = "Y" ∧
      ((∀ e, numFilms tiedFilms e ≤
          numFilms tiedFilms (DirectorWithMostFilms ["Z", "Y", "X"] tiedFilms)) ∧
        ∀ d, (∀ e, numFilms tiedFilms e ≤ numFilms tiedFilms d) →
          ["Z", "Y", "X"].indexOf (DirectorWithMostFilms ["Z", "Y", "X"] tiedFilms) ≤
            ["Z", "Y", "X"].indexOf d) :=
  ⟨by decide, by decide, by decide, by decide,
   directorWithMostFilms_first ["Z", "Y", "X"] tiedFilms (by decide) (by decide)⟩

/-! ### Filtering by director -/

/-- A loop whose step leaves the state unchanged at the films that fail a
test gives the same result over the films that pass it. -/
theorem foldl_filter_of_skip {σ : Type} (step : σ → Film → σ) (p : Film → Bool)
    (hskip : ∀ st f, p f = false → step st f = st) (films : List Film) :
    ∀ st : σ, films.foldl step st = (films.filter p).foldl step st := by
  induction films with
  | nil => intro st; rfl
  | cons film rest ih =>
    intro st
    cases hp : p film with
    | true => rw [List.filter_cons_of_pos hp, List.foldl_cons, List.foldl_cons, ih]
    | false =>
      rw [List.filter_cons_of_neg (by simp [hp]), List.foldl_cons, hskip st film hp, ih]

/-- C14. Each of `BestRatedFilm`, `AverageRating` (whatever the rounding of
its arithmetic) and `ShortestFilmReleaseGap` gives over a catalog the result
it gives over the sub-list that keeps, in order, the films whose director
name is exactly the given string. -/
theorem queries_filter_director (films : List Film) (d : String) :
    BestRatedFilm films d =
        BestRatedFilm (films.filter (fun f => f.DirectorName = d)) d ∧
      (∀ fl : ℚ → ℚ, AverageRating fl films d =
        AverageRating fl (films.filter (fun f => f.DirectorName = d)) d) ∧
      ShortestFilmReleaseGap films d =
        ShortestFilmReleaseGap (films.filter (fun f => f.DirectorName = d)) d := by
  refine ⟨?_, ?_, ?_⟩
  · unfold BestRatedFilm
    rw [foldl_filter_of_skip (bestRatedStep d) (fun f => f.DirectorName = d)]
    intro st f hf
    have : f.DirectorName ≠ d := by simpa using hf
    simp [bestRatedStep, this]
  · intro fl
    unfold AverageRating
    rw [foldl_filter_of_skip (averageStep fl d) (fun f => f.DirectorName = d)]
    intro st f hf
    have : f.DirectorName ≠ d := by simpa using hf
    simp [averageStep, this]
  · unfold ShortestFilmReleaseGap releaseDates
    rw [foldl_filter_of_skip (releaseDatesStep d) (fun f => f.DirectorName = d)]
    intro st f hf
    have : f.DirectorName ≠ d := by simpa using hf
    simp [releaseDatesStep, this]

/-- C14 at a catalog with films of `X`, of `x` in lower case, of `X` followed
by a blank and of `Y`: only the two films of `X` count. -/
theorem queries_filter_director_witness :
    mixedFilms.filter (fun f => f.DirectorName = "X") =
        [⟨"a", 100, 7, "2001-01-01", "X"⟩, ⟨"d", 100, 8, "2004-01-01", "X"⟩] ∧
      BestRatedFilm mixedFilms "X" = "d" ∧
      AverageRating id mixedFilms "X" = 75 / 10 ∧
      ShortestFilmReleaseGap mixedFilms "X" = 1095 ∧
      BestRatedFilm mixedFilms "X" =
        BestRatedFilm (mixedFilms.filter (fun f => f.DirectorName = "X")) "X" :=
  ⟨by decide!, by decide!, by decide!, by decide!, (queries_filter_director mixedFilms "X").1⟩

/-! ### Ties in BestRatedFilm -/

/-- The loop of `BestRatedFilm`: either the state is unchanged and every
matching film is rated at most like the initial best film, or the final best
film is the first matching film of the largest rating. -/
theorem bestRated_fold_first (d : String) (films : List Film) :
    ∀ st : Film × Bool,
      (films.foldl (bestRatedStep d) st = st ∧
        ∀ g ∈ films, g.DirectorName = d → st.2 = true ∧ g.Rating ≤ st.1.Rating) ∨
      (∃ pre post, films = pre ++ (films.foldl (bestRatedStep d) st).1 :: post ∧
        (films.foldl (bestRatedStep d) st).2 = true ∧
        (films.foldl (bestRatedStep d) st).1.DirectorName = d ∧
        (st.2 = true → st.1.Rating < (films.foldl (bestRatedStep d) st).1.Rating) ∧
        (∀ g ∈ pre, g.DirectorName = d →
          g.Rating < (films.foldl (bestRatedStep d) st).1.Rating) ∧
        (∀ g ∈ post, g.DirectorName = d →
          g.Rating ≤ (films.foldl (bestRatedStep d) st).1.Rating)) := by
  induction films with
  | nil => intro st; left; simp
  | cons film rest ih =>
    intro st
    rw [List.foldl_cons]
    by_cases hup : film.DirectorName = d ∧ (st.2 = false ∨ st.1.Rating < film.Rating)
    · obtain ⟨hm, hb⟩ := hup
      have hstep : bestRatedStep d st film = (film, true) := by
        unfold bestRatedStep
        rcases hb with hb | hb
        · simp [hm, hb]
        · simp [hm, hb]
      have hst : st.2 = true → st.1.Rating < film.Rating := by
        intro hs
        rcases hb with hb | hb
        · rw [hb] at hs; exact absurd hs (by simp)
        · exact hb
      rw [hstep]
      rcases ih (film, true) with ⟨heq, hall⟩ | ⟨pre, post, hsplit, hf, hdir, hlt, hpre, hpost⟩
      · right
        rw [heq]
        exact ⟨[], rest, rfl, rfl, hm, hst, by simp, fun g hg hgd => (hall g hg hgd).2⟩
      · right
        refine ⟨film :: pre, post, ?_, hf, hdir, ?_, ?_, hpost⟩
        · rw [List.cons_append, ← hsplit]
        · intro hs
          exact lt_trans (hst hs) (hlt rfl)
        · intro g hg hgd
          rcases List.mem_cons.mp hg with rfl | hg
          · exact hlt rfl
          · exact hpre g hg hgd
    · have hkeep : film.DirectorName = d → st.2 = true ∧ film.Rating ≤ st.1.Rating := by
        intro hm
        by_contra hcon
        apply hup
        refine ⟨hm, ?_⟩
        by_cases hs : st.2 = true
        · right
          by_contra hlt
          exact hcon ⟨hs, not_lt.mp hlt⟩
        · left
          simpa using hs
      have hstep : bestRatedStep d st film = st := by
        unfold bestRatedStep
        by_cases hm : film.DirectorName = d
        · obtain ⟨hs, hle⟩ := hkeep hm
          simp [hm, hs, not_lt.mpr hle]
        · simp [hm]
      rw [hstep]
      rcases ih st with ⟨heq, hall⟩ | ⟨pre, post, hsplit, hf, hdir, hlt, hpre, hpost⟩
      · left
        refine ⟨heq, ?_⟩
        intro g hg hgd
        rcases List.mem_cons.mp hg with rfl | hg
        · exact hkeep hgd
        · exact hall g hg hgd
      · right
        refine ⟨film :: pre, post, ?_, hf, hdir, hlt, ?_, hpost⟩
        · rw [List.cons_append, ← hsplit]
        · intro g hg hgd
          rcases List.mem_cons.mp hg with rfl | hg
          · obtain ⟨hs, hle⟩ := hkeep hgd
            exact lt_of_le_of_lt hle (hlt hs)
          · exact hpre g hg hgd

/-- C15. When some film is directed by `d`, `BestRatedFilm` returns the name
of the matching film of maximal rating that comes first in the catalog: the
matching films before it are rated strictly lower, the matching films after
it are rated at most as high. -/
theorem bestRatedFilm_first_max (films : List Film) (d : String)
    (h : ∃ f ∈ films, f.DirectorName = d) :
    ∃ pre best post, films = pre ++ best :: post ∧ best.DirectorName = d ∧
      BestRatedFilm films d = best.Name ∧
      (∀ g ∈ pre, g.DirectorName = d → g.Rating < best.Rating) ∧
      (∀ g ∈ post, g.DirectorName = d → g.Rating ≤ best.Rating) := by
  rcases bestRated_fold_first d films (zeroFilm, false) with
    ⟨_, hall⟩ | ⟨pre, post, hsplit, hf, hdir, _, hpre, hpost⟩
  · obtain ⟨f, hf, hfd⟩ := h
    exact absurd (hall f hf hfd).1 (by simp)
  · refine ⟨pre, _, post, hsplit, hdir, ?_, hpre, hpost⟩
    simp [BestRatedFilm, hf]

/-- C15 at a catalog in which the films `first` and `second` of director `X`
share the best rating 9: the result is `first`. -/
theorem bestRatedFilm_first_max_witness :
    (∃ f ∈ tiedRatings, f.DirectorName = "X") ∧
      BestRatedFilm tiedRatings "X" = "first" ∧
      ∃ pre best post, tiedRatings = pre ++ best :: post ∧ best.DirectorName = "X" ∧
        BestRatedFilm tiedRatings "X" = best.Name ∧
        (∀ g ∈ pre, g.DirectorName = "X" → g.Rating < best.Rating) ∧
        (∀ g ∈ post, g.DirectorName = "X" → g.Rating ≤ best.Rating) :=
  ⟨⟨⟨"low", 100, 7, "2001-01-01", "X"⟩, by simp [tiedRatings], rfl⟩, by decide,
   bestRatedFilm_first_max tiedRatings "X"
     ⟨⟨"low", 100, 7, "2001-01-01", "X"⟩, by simp [tiedRatings], rfl⟩⟩

/-! ### Bounds on the shortest release gap -/

/-- For a director with at least two dated films the code's result is one of
the gaps between consecutive sorted dates, capped at 106751. -/
theorem shortestGap_mem (films : List Film) (d : String)
    (h : 2 ≤ (matchingDates films d).length) :
    ∃ g ∈ adjacentGaps (sortDates (matchingDates films d)),
      ShortestFilmReleaseGap films d = min g maxGapDays := by
  obtain ⟨hmem, _⟩ := List.minimum_eq_coe_iff.mp (shortestGap_adjacent films d h)
  obtain ⟨g, hg, hge⟩ := List.mem_map.mp hmem
  exact ⟨g, hg, hge.symm⟩

/-- The gaps between consecutive elements of a sorted list are not
negative. -/
theorem adjacentGaps_nonneg (l : List Int) (hs : l.Sorted (fun a b => a ≤ b)) :
    ∀ g ∈ adjacentGaps l, 0 ≤ g := by
  induction l with
  | nil => intro g hg; simp [adjacentGaps] at hg
  | cons a rest ih =>
    cases rest with
    | nil => intro g hg; simp [adjacentGaps] at hg
    | cons b rest2 =>
      intro g hg
      have hab : a ≤ b := (List.sorted_cons.mp hs).1 b (List.mem_cons_self _ _)
      simp only [adjacentGaps, List.tail_cons, List.zipWith_cons_cons, List.mem_cons] at hg
      rcases hg with rfl | hg
      · exact daysBetween_nonneg a b hab
      · exact ih hs.of_cons g hg

/-- The gaps between consecutive elements of a sorted list of different
midnights are at least one day. -/
theorem adjacentGaps_pos (l : List Int) (hs : l.Sorted (fun a b => a ≤ b))
    (hn : l.Nodup) (hd : ∀ t ∈ l, (86400 : Int) ∣ t) :
    ∀ g ∈ adjacentGaps l, 1 ≤ g := by
  induction l with
  | nil => intro g hg; simp [adjacentGaps] at hg
  | cons a rest ih =>
    cases rest with
    | nil => intro g hg; simp [adjacentGaps] at hg
    | cons b rest2 =>
      intro g hg
      have hab : a ≤ b := (List.sorted_cons.mp hs).1 b (List.mem_cons_self _ _)
      have hne : a ≠ b := fun h =>
        (List.nodup_cons.mp hn).1 (h ▸ List.mem_cons_self _ _)
      simp only [adjacentGaps, List.tail_cons, List.zipWith_cons_cons, List.mem_cons] at hg
      rcases hg with rfl | hg
      · obtain ⟨k, hk⟩ : (86400 : Int) ∣ b - a :=
          Int.dvd_sub (hd b (List.mem_cons_of_mem _ (List.mem_cons_self _ _)))
            (hd a (List.mem_cons_self _ _))
        have hdb : daysBetween a b = k := by
          unfold daysBetween
          rw [hk]
          exact Int.mul_ediv_cancel_left k (by norm_num)
        rw [hdb]
        omega
      · exact ih hs.of_cons (List.nodup_cons.mp hn).2
          (fun t ht => hd t (List.mem_cons_of_mem _ ht)) g hg

/-- C18. The shortest release gap is never negative.  When no two dated films
of the director share a release date, it is at least 1 for a director with at
least two dated films, so it is 0 exactly when fewer than two dated films
match. -/
theorem shortestGap_nonneg (films : List Film) (d : String) :
    0 ≤ ShortestFilmReleaseGap films d ∧
      ((matchingDates films d).Nodup → 2 ≤ (matchingDates films d).length →
        1 ≤ ShortestFilmReleaseGap films d) ∧
      ((matchingDates films d).Nodup →
        (ShortestFilmReleaseGap films d = 0 ↔ (matchingDates films d).length < 2)) := by
  have hperm : (sortDates (matchingDates films d)).Perm (matchingDates films d) :=
    List.perm_insertionSort _ _
  have hs : (sortDates (matchingDates films d)).Sorted (fun a b => a ≤ b) :=
    List.sorted_insertionSort _ _
  have hd : ∀ t ∈ sortDates (matchingDates films d), (86400 : Int) ∣ t :=
    fun t ht => matchingDates_dvd films d t (hperm.mem_iff.mp ht)
  have hsmall : (matchingDates films d).length < 2 → ShortestFilmReleaseGap films d = 0 := by
    intro h
    simp only [ShortestFilmReleaseGap, releaseDates_eq]
    rw [if_pos h]
  have hbig : (matchingDates films d).Nodup → 2 ≤ (matchingDates films d).length →
      1 ≤ ShortestFilmReleaseGap films d := by
    intro hn h
    obtain ⟨g, hg, hr⟩ := shortestGap_mem films d h
    have hg1 := adjacentGaps_pos _ hs (hperm.nodup_iff.mpr hn) hd g hg
    rw [hr]
    unfold maxGapDays
    omega
  refine ⟨?_, hbig, ?_⟩
  · by_cases h : 2 ≤ (matchingDates films d).length
    · obtain ⟨g, hg, hr⟩ := shortestGap_mem films d h
      have hg0 := adjacentGaps_nonneg _ hs g hg
      rw [hr]
      unfold maxGapDays
      omega
    · rw [hsmall (by omega)]
  · intro hn
    constructor
    · intro h0
      by_contra hlen
      have := hbig hn (by omega)
      omega
    · exact hsmall

/-- C18 at the three films of the doc comment, whose release dates are
different. -/
theorem shortestGap_nonneg_witness :
    (matchingDates nolanFilms "Christopher Nolan").Nodup ∧
      2 ≤ (matchingDates nolanFilms "Christopher Nolan").length ∧
      1 ≤ ShortestFilmReleaseGap nolanFilms "Christopher Nolan" :=
  ⟨by decide!, by decide!,
   (shortestGap_nonneg nolanFilms "Christopher Nolan").2.1 (by decide!) (by decide!)⟩

/-- C19. The shortest release gap is at most 106751, the number of whole days
in the largest `Duration`; for a director whose only two dated films are more
than 106751 days apart the result is 106751, which is less than the number
of days between the two releases. -/
theorem shortestGap_le_saturation (films : List Film) (d : String) :
    ShortestFilmReleaseGap films d ≤ 106751 ∧
      ∀ a b, matchingDates films d = [a, b] → 106751 < |daysBetween a b| →
        ShortestFilmReleaseGap films d = 106751 ∧
          ShortestFilmReleaseGap films d < |daysBetween a b| := by
  constructor
  · by_cases h : 2 ≤ (matchingDates films d).length
    · obtain ⟨g, _, hr⟩ := shortestGap_mem films d h
      rw [hr]
      unfold maxGapDays
      omega
    · simp only [ShortestFilmReleaseGap, releaseDates_eq]
      rw [if_pos (by omega)]
      norm_num
  · intro a b hab hfar
    have h2 : 2 ≤ (matchingDates films d).length := by rw [hab]; simp
    have hp := shortestGap_pairs films d h2
    rw [hab] at hp
    simp only [pairGaps, List.map_cons, List.map_nil, List.nil_append, List.append_nil,
      List.minimum_singleton, WithTop.coe_eq_coe] at hp
    have h3 : ShortestFilmReleaseGap films d = 106751 := by
      rw [← hp]
      unfold maxGapDays
      omega
    exact ⟨h3, by omega⟩

/-- C19 at two films of one director released on 0001-01-01 and on
9999-12-31, which are 3652058 days apart. -/
theorem shortestGap_le_saturation_witness :
    (∃ a b, matchingDates farApartFilms "Z" = [a, b] ∧ |daysBetween a b| = 3652058) ∧
      ShortestFilmReleaseGap farApartFilms "Z" = 106751 :=
  ⟨⟨0, 3652058 * 86400, by decide!, by decide!⟩,
   ((shortestGap_le_saturation farApartFilms "Z").2 0 (3652058 * 86400)
     (by decide!) (by decide!)).1⟩

/-! ### Rounding error of binary64 arithmetic -/

end Films
